import Mathlib

/-!
Verification of the parkland-hunt photo-scavenger-hunt core.

The repository contains two iterations of the single client page:
`src/app/page.tsx` and a later copy of the same page embedded in
`supabase/migrations/20260207_fix_votes_rls.sql` (after the document
separator).  Where the two iterations differ (the skip-voting decision in
`finishHunt`, the `sortedPrompts` presentation sort), the embedded later
iteration is the one modelled, as it is the one the specification
describes; everything else (tally engine, voting sequencer, membership
join, submission ensure, signed-URL retry) is identical in both copies.

Identifiers are modelled as `String`s, timestamps as `Option String`
(null vs. non-null is all the code inspects), and machine-generated row
ids as `Nat` counters.  Display-name resolution (`playerNameMap`) and
blob signed URLs are presentation-level joins on top of the quantities
proved about here (winning submission, vote totals) and are left out of
the tally records.
-/

namespace ParklandHunt

/-- A `submissions` row as used by the tally engine: `id`, `prompt_id`,
`player_id` (the `photo_path` field does not influence winners or the
leaderboard). -/
structure Submission where
  sub_id : String
  prompt_id : String
  player_id : String
deriving DecidableEq, Repr

/-- A `votes` row: `{submission_id, player_id, category}` as inserted by
`castVote`. -/
structure Vote where
  submission_id : String
  player_id : String
  category : String
deriving DecidableEq, Repr

/-- A prompt as rendered and tallied (`{id, text}`; the pack field is the
query key and constant within one hunt). -/
structure Prompt where
  pid : String
  text : String
deriving DecidableEq, Repr

/-- `voteCountMap[sid]`: the results effect fetches the whole `votes`
table and counts rows per `submission_id`; a missing key reads as 0. -/
def voteCount (votes : List Vote) (sid : String) : Nat :=
  votes.countP (fun v => v.submission_id == sid)

/-- The winner loop of the results effect, fold form: walking the
prompt's submissions with accumulators `maxVotes` (initially 0) and
`winner` (initially null), replacing the winner whenever
`votes > maxVotes`. -/
def winnerGo (cnt : String → Nat) : List Submission → Nat →
    Option (Submission × Nat) → Option (Submission × Nat)
  | [], _, w => w
  | s :: rest, maxVotes, w =>
      if maxVotes < cnt s.sub_id then
        winnerGo cnt rest (cnt s.sub_id) (some (s, cnt s.sub_id))
      else
        winnerGo cnt rest maxVotes w

/-- Per-prompt winner: the loop over `promptSubs` starting from
`maxVotes = 0`, `winner = null`. -/
def winnerForPrompt (cnt : String → Nat) (promptSubs : List Submission) :
    Option (Submission × Nat) :=
  winnerGo cnt promptSubs 0 none

/-- One `promptWinners` entry per prompt, pairing the prompt with the
winner computed over the submissions filtered to that prompt. -/
def promptWinners (prompts : List Prompt) (subs : List Submission)
    (cnt : String → Nat) : List (Prompt × Option (Submission × Nat)) :=
  prompts.map (fun p => (p, winnerForPrompt cnt (subs.filter (fun s => s.prompt_id == p.pid))))

/-- One `playerVotes` entry: the leaderboard accumulator keyed by
`player_id` with a running `total_votes` (display names are resolved
from `playerNameMap` at the same key and add no information). -/
structure PlayerTotal where
  player_id : String
  total_votes : Nat
deriving DecidableEq, Repr

/-- `playerVotes[pid].total_votes += v`, inserting `{pid, 0+v}` at the
end when the key is new — JavaScript objects keep string keys in
insertion order, so a new player lands after all existing ones. -/
def addVotes : List PlayerTotal → String → Nat → List PlayerTotal
  | [], pid, v => [⟨pid, v⟩]
  | e :: rest, pid, v =>
      if e.player_id = pid then ⟨e.player_id, e.total_votes + v⟩ :: rest
      else e :: addVotes rest pid v

/-- The leaderboard accumulation loop: for each submission (in input
order) add its vote count to its author's running total. -/
def playerTotals (subs : List Submission) (cnt : String → Nat) : List PlayerTotal :=
  subs.foldl (fun acc s => addVotes acc s.player_id (cnt s.sub_id)) []

/-- Stable insertion for the descending sort
`sort((a, b) => b.total_votes - a.total_votes)`: an element moves ahead
of exactly the strictly smaller totals, staying behind every earlier
element with an equal or larger total. -/
def insertDesc (x : PlayerTotal) : List PlayerTotal → List PlayerTotal
  | [] => [x]
  | y :: ys =>
      if y.total_votes ≤ x.total_votes then x :: y :: ys
      else y :: insertDesc x ys

/-- The stable descending sort used on `Object.values(playerVotes)`
(ECMAScript `Array.prototype.sort` is stable, so this insertion sort
produces the same list). -/
def sortDesc : List PlayerTotal → List PlayerTotal
  | [] => []
  | x :: xs => insertDesc x (sortDesc xs)

/-- `leaderboard = Object.values(playerVotes).sort(...)`. -/
def leaderboardOf (subs : List Submission) (cnt : String → Nat) : List PlayerTotal :=
  sortDesc (playerTotals subs cnt)

/-- The whole results computation from snapshots of this hunt's
submissions, the prompt list, and the (unscoped) votes table. -/
def huntResults (prompts : List Prompt) (subs : List Submission) (votes : List Vote) :
    List (Prompt × Option (Submission × Nat)) × List PlayerTotal :=
  (promptWinners prompts subs (voteCount votes), leaderboardOf subs (voteCount votes))

/-- The hunt status enum `lobby | active | voting | finished`. -/
inductive HStatus where
  | lobby
  | active
  | voting
  | finished
deriving DecidableEq, Repr

/-- The `prompt_id, player_id` projection of a submission row, as
fetched by `finishHunt`'s votability check. -/
structure SubPair where
  prompt_id : String
  player_id : String
deriving DecidableEq, Repr

/-- `finishHunt`'s votability check: group submissions by prompt and ask
whether any prompt was submitted to by at least two distinct players
(the `Set` per prompt in `promptPlayerMap` has size ≥ 2). -/
def hasVotablePrompts (subs : List SubPair) : Bool :=
  ((subs.map (fun s => s.prompt_id)).dedup).any
    (fun pid =>
      decide (2 ≤ (((subs.filter (fun s => s.prompt_id == pid)).map
        (fun s => s.player_id)).dedup).length))

/-- The status write `finishHunt` performs after recording the caller's
own `finished_at`: it re-reads every member's `finished_at` (`mems`) and
this hunt's submissions (`subs`); only when the member list is non-empty
and every `finished_at` is non-null does it write a status — `finished`
when no prompt is votable, `voting` otherwise.  `none` means no status
write happens. -/
def finishHuntNextStatus (mems : List (Option String)) (subs : List SubPair) :
    Option HStatus :=
  if mems.all (fun m => m.isSome) && !mems.isEmpty then
    if hasVotablePrompts subs then some HStatus.voting else some HStatus.finished
  else
    none

/-- `transitionToFinished` issues `update hunts set status = 'finished'`
with no precondition at all: whatever the hunt's authoritative status,
the write lands `finished`. -/
def transitionToFinishedStep (_ : HStatus) : HStatus :=
  HStatus.finished

/-- The operations of the page that can touch hunt state.  Every
status-writing operation carries the triggering client's local replica
of the hunt status (`view`): `none` while the hunt row has not loaded,
`some t` for the last status the client observed, which may be stale —
the Change Notifier is best-effort, so `view` need not equal the
authoritative status.  `finishHunt` also carries the ledger snapshots it
re-reads, and `advance` whether the client is on its last
prompt-with-submissions (only then does it call
`transitionToFinished`); `castVote`, `joinOp`, `submitOp` and
`undoFinish` write only to the vote/membership/submission ledgers. -/
inductive Op where
  | startGame (view : Option HStatus)
  | finishHunt (view : Option HStatus) (mems : List (Option String))
      (subs : List SubPair)
  | advance (view : Option HStatus) (isLast : Bool)
  | viewResults (view : Option HStatus)
  | castVote
  | undoFinish
  | joinOp
  | submitOp

/-- Effect of one operation on the hunt's authoritative status.  An
operation fires exactly when the client's replica renders its trigger —
`startGame` on the lobby screen (`view = some lobby`), `finishHunt` on
the active screen, which is the render fallback and therefore also shown
while the hunt row is still null (`view = none ∨ view = some active`),
`advance`/`viewResults` on the voting screen (`view = some voting`) —
and its status write is unconditional on the authoritative status, as in
the source. -/
def applyOp : Op → HStatus → HStatus
  | Op.startGame view, s =>
      if view = some HStatus.lobby then HStatus.active else s
  | Op.finishHunt view mems subs, s =>
      if view = none ∨ view = some HStatus.active then
        match finishHuntNextStatus mems subs with
        | some t => t
        | none => s
      else s
  | Op.advance view isLast, s =>
      if view = some HStatus.voting ∧ isLast = true then
        transitionToFinishedStep s
      else s
  | Op.viewResults view, s =>
      if view = some HStatus.voting then transitionToFinishedStep s else s
  | Op.castVote, s => s
  | Op.undoFinish, s => s
  | Op.joinOp, s => s
  | Op.submitOp, s => s

/-- A status-writing operation's replica is fresh when it equals the
hunt's authoritative status at the moment the operation runs; operations
that never write status are unconstrained. -/
def viewFresh : Op → HStatus → Bool
  | Op.startGame view, s => decide (view = some s)
  | Op.finishHunt view _ _, s => decide (view = some s)
  | Op.advance view _, s => decide (view = some s)
  | Op.viewResults view, s => decide (view = some s)
  | Op.castVote, _ => true
  | Op.undoFinish, _ => true
  | Op.joinOp, _ => true
  | Op.submitOp, _ => true

/-- A run is fresh when every operation fires with a fresh replica of
the status current at its turn. -/
def freshRun : HStatus → List Op → Bool
  | _, [] => true
  | s, op :: rest => viewFresh op s && freshRun (applyOp op s) rest

/-- The sequence of statuses a hunt passes through under a sequence of
operations. -/
def statusTrace (s : HStatus) : List Op → List HStatus
  | [] => [s]
  | op :: rest => s :: statusTrace (applyOp op s) rest

/-- The legal forward edges of the hunt state machine. -/
def forwardStep (a b : HStatus) : Prop :=
  (a = HStatus.lobby ∧ b = HStatus.active) ∨
  (a = HStatus.active ∧ (b = HStatus.voting ∨ b = HStatus.finished)) ∨
  (a = HStatus.voting ∧ b = HStatus.finished)

/-- A voting client's local sequencer state: `currentPromptIndex` and
the set of prompt ids already voted-or-skipped (`votedPromptIds`). -/
structure VState where
  idx : Nat
  voted : List String
deriving DecidableEq, Repr

/-- `advanceToNextPrompt` over the client's ordered list `ps` of
prompts-with-submissions: no-op when the index is out of range, else
mark the current prompt voted and either step the index forward or — on
the last prompt — call `transitionToFinished` (the returned flag records
whether that status write was made). -/
def advanceToNextPrompt (ps : List String) (c : VState) : VState × Bool :=
  match ps.get? c.idx with
  | none => (c, false)
  | some pid =>
      if c.idx < ps.length - 1 then
        (⟨c.idx + 1, c.voted.insert pid⟩, false)
      else
        (⟨c.idx, c.voted.insert pid⟩, true)

/-- The status-write flags produced by `n` successive `advance` calls. -/
def advanceFlags (ps : List String) : VState → Nat → List Bool
  | _, 0 => []
  | c, n + 1 =>
      let r := advanceToNextPrompt ps c
      r.2 :: advanceFlags ps r.1 n

/-- A `hunt_players` membership row (`joined_at` plays no role in the
join contract). -/
structure MRow where
  hunt_id : String
  player_id : String
  display_name : String
  role : String
deriving DecidableEq, Repr

/-- The membership join: look for an existing `(hunt_id, player_id)` row
first, and only when absent upsert with `ignoreDuplicates: true` —
insert-if-absent, never overwriting an existing row.  (`createHunt`'s
host upsert runs against a freshly created hunt id, so it too only ever
inserts.) -/
def joinHunt (L : List MRow) (h p name role : String) : List MRow :=
  if L.any (fun r => r.hunt_id == h && r.player_id == p) then L
  else L ++ [⟨h, p, name, role⟩]

/-- A `submissions` row as created by `ensureSubmission`: the database
assigns the id (modelled by a counter) and `photo_path` starts null. -/
structure SubRow where
  row_id : Nat
  hunt_id : String
  player_id : String
  prompt_id : String
  photo_path : Option String
deriving DecidableEq, Repr

/-- A submitting client's state: the local `submissionIdByPromptId`
cache, the shared submissions table, and the database's id supply. -/
structure CState where
  cache : List (String × Nat)
  db : List SubRow
  nextId : Nat
deriving DecidableEq, Repr

/-- `ensureSubmission(promptId)` for the client of `(h, p)`: return the
cached id when present; else insert a row with null photo, cache the new
id and return it. -/
def ensureSubmission (st : CState) (h p pid : String) : Nat × CState :=
  match st.cache.lookup pid with
  | some sid => (sid, st)
  | none =>
      (st.nextId,
        ⟨(pid, st.nextId) :: st.cache,
         st.db ++ [⟨st.nextId, h, p, pid, none⟩],
         st.nextId + 1⟩)

/-- Observable events of `getSignedUrlWithRetry`: one URL-generation
attempt (by index), or one `sleep(ms)`. -/
inductive Ev where
  | att (i : Nat)
  | slept (ms : Nat)
deriving DecidableEq, Repr

/-- The retry loop body: `rem` remaining iterations starting at attempt
index `i`; a successful attempt returns its URL at once, a failed one
sleeps `delayMs` and continues; exhausting the budget yields `none`. -/
def retryGo (attempt : Nat → Option String) (delayMs : Nat) : Nat → Nat →
    Option String × List Ev
  | _, 0 => (none, [])
  | i, rem + 1 =>
      match attempt i with
      | some url => (some url, [Ev.att i])
      | none =>
          let r := retryGo attempt delayMs (i + 1) rem
          (r.1, Ev.att i :: Ev.slept delayMs :: r.2)

/-- `getSignedUrlWithRetry(path, tries = 6, delayMs = 400)` — every call
site uses the defaults, so they are baked in here; `attempt i` is the
blob store's response to the `i`-th `createSignedUrl` call. -/
def getSignedUrlWithRetry (attempt : Nat → Option String) :
    Option String × List Ev :=
  retryGo attempt 400 0 6

/-- The per-prompt submission status union of the page. -/
inductive SStatus where
  | idle
  | saving
  | needs_photo
  | uploading
  | saved
  | error
deriving DecidableEq, Repr

/-- The `isIncomplete` predicate of `sortedPrompts`: statuses
`idle | needs_photo | error` count as not yet completed. -/
def isIncomplete : SStatus → Bool
  | SStatus.idle => true
  | SStatus.needs_photo => true
  | SStatus.error => true
  | _ => false

/-- Stable insertion realising the `sortedPrompts` comparator (−1 when
`a` incomplete and `b` complete, 1 in the opposite case, 0 otherwise):
an element only moves ahead of a later one when it is incomplete or that
one is complete — i.e. never past an element the comparator orders
before it, and never past an equal one that came earlier. -/
def insertPrompt (stat : String → SStatus) (x : Prompt) : List Prompt → List Prompt
  | [] => [x]
  | y :: ys =>
      if isIncomplete (stat x.pid) || !isIncomplete (stat y.pid) then x :: y :: ys
      else y :: insertPrompt stat x ys

/-- `sortedPrompts`: the stable sort of the player's shuffled prompt
list under the incomplete-first comparator (`[...prompts].sort(...)`,
stable per the ECMAScript specification). -/
def sortedPrompts (stat : String → SStatus) : List Prompt → List Prompt
  | [] => []
  | x :: xs => insertPrompt stat x (sortedPrompts stat xs)

/-- Proof-side accessor: the total recorded in an accumulator for a
player key, 0 when the key is absent (the object-lookup semantics of
`playerVotes[pid]`). -/
def totalIn : List PlayerTotal → String → Nat
  | [], _ => 0
  | e :: rest, q => if e.player_id = q then e.total_votes else totalIn rest q

/-- Recogniser for URL-generation attempt events. -/
def isAttEv : Ev → Bool
  | Ev.att _ => true
  | Ev.slept _ => false

/-! ## Tally engine: per-prompt winner (C1) -/

/-- When no submission beats the running maximum, the winner
accumulator is returned unchanged. -/
theorem winnerGo_of_all_le (cnt : String → Nat) :
    ∀ (subs : List Submission) (maxV : Nat) (w : Option (Submission × Nat)),
      (∀ s ∈ subs, cnt s.sub_id ≤ maxV) → winnerGo cnt subs maxV w = w := by
  intro subs
  induction subs with
  | nil => intro maxV w _; rfl
  | cons s rest ih =>
      intro maxV w h
      have hs : cnt s.sub_id ≤ maxV := h s (by simp)
      rw [winnerGo, if_neg (by omega)]
      exact ih maxV w (fun t ht => h t (by simp [ht]))

/-- As soon as some submission beats the running maximum, the loop
returns the first submission attaining the (strict) maximum count. -/
theorem winnerGo_finds_first_max (cnt : String → Nat) :
    ∀ (subs : List Submission) (maxV : Nat) (w : Option (Submission × Nat)),
      (∃ s ∈ subs, maxV < cnt s.sub_id) →
      ∃ pre s post, subs = pre ++ s :: post ∧
        winnerGo cnt subs maxV w = some (s, cnt s.sub_id) ∧
        maxV < cnt s.sub_id ∧
        (∀ t ∈ pre, cnt t.sub_id < cnt s.sub_id) ∧
        (∀ t ∈ subs, cnt t.sub_id ≤ cnt s.sub_id) := by
  intro subs
  induction subs with
  | nil => intro _ _ h; simp at h
  | cons s0 rest ih =>
      intro maxV w h
      by_cases h0 : maxV < cnt s0.sub_id
      · rw [winnerGo, if_pos h0]
        by_cases h1 : ∃ t ∈ rest, cnt s0.sub_id < cnt t.sub_id
        · obtain ⟨pre, s, post, heq, hres, hlt, hpre, hall⟩ :=
            ih (cnt s0.sub_id) (some (s0, cnt s0.sub_id)) h1
          refine ⟨s0 :: pre, s, post, by rw [heq, List.cons_append], hres, by omega, ?_, ?_⟩
          · intro t ht
            rcases List.mem_cons.mp ht with rfl | ht'
            · omega
            · exact hpre t ht'
          · intro t ht
            rcases List.mem_cons.mp ht with rfl | ht'
            · omega
            · exact hall t ht'
        · push_neg at h1
          refine ⟨[], s0, rest, rfl, ?_, h0, by simp, ?_⟩
          · exact winnerGo_of_all_le cnt rest (cnt s0.sub_id) _ h1
          · intro t ht
            rcases List.mem_cons.mp ht with rfl | ht'
            · omega
            · exact h1 t ht'
      · rw [winnerGo, if_neg h0]
        have h' : ∃ t ∈ rest, maxV < cnt t.sub_id := by
          obtain ⟨t, ht, htv⟩ := h
          rcases List.mem_cons.mp ht with rfl | ht'
          · omega
          · exact ⟨t, ht', htv⟩
        obtain ⟨pre, s, post, heq, hres, hlt, hpre, hall⟩ := ih maxV w h'
        refine ⟨s0 :: pre, s, post, by rw [heq, List.cons_append], hres, hlt, ?_, ?_⟩
        · intro t ht
          rcases List.mem_cons.mp ht with rfl | ht'
          · omega
          · exact hpre t ht'
        · intro t ht
          rcases List.mem_cons.mp ht with rfl | ht'
          · omega
          · exact hall t ht'

/-- C1 (amended): the per-prompt winner is null for a prompt with zero
submissions AND for a prompt none of whose submissions received a vote;
when some submission has a positive vote count, the winner is the
first-encountered submission with the strictly greatest vote count (all
earlier submissions strictly below it, all submissions at or below it). -/
theorem c1_winner_amended (cnt : String → Nat) (subs : List Submission) :
    (subs = [] → winnerForPrompt cnt subs = none) ∧
    ((∀ s ∈ subs, cnt s.sub_id = 0) → winnerForPrompt cnt subs = none) ∧
    ((∃ s ∈ subs, 0 < cnt s.sub_id) →
      ∃ pre s post, subs = pre ++ s :: post ∧
        winnerForPrompt cnt subs = some (s, cnt s.sub_id) ∧
        0 < cnt s.sub_id ∧
        (∀ t ∈ pre, cnt t.sub_id < cnt s.sub_id) ∧
        (∀ t ∈ subs, cnt t.sub_id ≤ cnt s.sub_id)) := by
  refine ⟨?_, ?_, ?_⟩
  · rintro rfl; rfl
  · intro h
    exact winnerGo_of_all_le cnt subs 0 none (fun s hs => by rw [h s hs])
  · intro h
    exact winnerGo_finds_first_max cnt subs 0 none h

/-- C1 counterexample: a prompt with exactly one (hence, a nonempty set
of) submission(s) whose vote count is 0 has a null winner, not a winner
with `votes: 0` as the claim states. -/
theorem c1_sole_zero_vote_submission_has_no_winner :
    winnerForPrompt (fun _ => 0) [⟨"s1", "p1", "alice"⟩] = none ∧
    ([⟨"s1", "p1", "alice"⟩] : List Submission) ≠ [] := by
  constructor
  · decide
  · decide

/-- C1 witness: on submissions `s1` (3 votes) and `s2` (1 vote) to the
same prompt, the amended theorem applies: a positive-vote submission
exists, so a first-encountered strict-maximum winner is produced. -/
theorem c1_winner_amended_witness :
    (∃ s ∈ [(⟨"s1", "pA", "x"⟩ : Submission), ⟨"s2", "pA", "y"⟩],
        0 < (fun sid => if sid == "s1" then 3 else 1) s.sub_id) ∧
    (∃ pre s post,
        [(⟨"s1", "pA", "x"⟩ : Submission), ⟨"s2", "pA", "y"⟩] = pre ++ s :: post ∧
        winnerForPrompt (fun sid => if sid == "s1" then 3 else 1)
            [⟨"s1", "pA", "x"⟩, ⟨"s2", "pA", "y"⟩] =
          some (s, (fun sid => if sid == "s1" then 3 else 1) s.sub_id) ∧
        0 < (fun sid => if sid == "s1" then 3 else 1) s.sub_id ∧
        (∀ t ∈ pre, (fun sid => if sid == "s1" then 3 else 1) t.sub_id <
            (fun sid => if sid == "s1" then 3 else 1) s.sub_id) ∧
        (∀ t ∈ [(⟨"s1", "pA", "x"⟩ : Submission), ⟨"s2", "pA", "y"⟩],
            (fun sid => if sid == "s1" then 3 else 1) t.sub_id ≤
            (fun sid => if sid == "s1" then 3 else 1) s.sub_id)) :=
  ⟨by decide,
   (c1_winner_amended (fun sid => if sid == "s1" then 3 else 1)
      [⟨"s1", "pA", "x"⟩, ⟨"s2", "pA", "y"⟩]).2.2 (by decide)⟩

/-! ## Presentation sort of the active prompt list (C9) -/

/-- A completed element passes over a block of incomplete ones without
disturbing it. -/
theorem insertPrompt_append_incomplete (stat : String → SStatus) (x : Prompt)
    (hx : isIncomplete (stat x.pid) = false) :
    ∀ (A B : List Prompt), (∀ y ∈ A, isIncomplete (stat y.pid) = true) →
      insertPrompt stat x (A ++ B) = A ++ insertPrompt stat x B := by
  intro A
  induction A with
  | nil => intro B _; rfl
  | cons y ys ih =>
      intro B hA
      have hy : isIncomplete (stat y.pid) = true := hA y (by simp)
      rw [List.cons_append, insertPrompt, if_neg (by simp [hx, hy]),
        ih B (fun t ht => hA t (by simp [ht])), List.cons_append]

/-- Any element is inserted directly in front of a block of completed
ones. -/
theorem insertPrompt_all_complete (stat : String → SStatus) (x : Prompt) :
    ∀ B : List Prompt, (∀ y ∈ B, isIncomplete (stat y.pid) = false) →
      insertPrompt stat x B = x :: B := by
  intro B hB
  cases B with
  | nil => rfl
  | cons y ys =>
      have hy : isIncomplete (stat y.pid) = false := hB y (by simp)
      rw [insertPrompt, if_pos (by simp [hy])]

/-- C9: during an active hunt the displayed list `sortedPrompts` is the
stable partition of the (shuffled) prompt list by per-prompt completion
status: every not-yet-completed prompt precedes every completed one, and
the relative order inside each group is preserved. -/
theorem c9_sorted_prompts_stable_partition (stat : String → SStatus)
    (ps : List Prompt) :
    sortedPrompts stat ps =
      ps.filter (fun p => isIncomplete (stat p.pid)) ++
      ps.filter (fun p => !isIncomplete (stat p.pid)) := by
  induction ps with
  | nil => rfl
  | cons x xs ih =>
      by_cases hx : isIncomplete (stat x.pid) = true
      · have hins : ∀ l, insertPrompt stat x l = x :: l := by
          intro l
          cases l with
          | nil => rfl
          | cons y ys => rw [insertPrompt, if_pos (by simp [hx])]
        rw [sortedPrompts, hins, ih,
          List.filter_cons_of_pos (by simp [hx]),
          List.filter_cons_of_neg (by simp [hx]), List.cons_append]
      · have hx' : isIncomplete (stat x.pid) = false := by
          simpa using hx
        rw [sortedPrompts, ih,
          insertPrompt_append_incomplete stat x hx' _ _
            (fun y hy => (List.mem_filter.mp hy).2),
          insertPrompt_all_complete stat x _
            (fun y hy => by simpa using (List.mem_filter.mp hy).2),
          List.filter_cons_of_neg (by simp [hx']),
          List.filter_cons_of_pos (by simp [hx'])]

/-! ## Hunt state machine monotonicity (C3) -/

/-- When `finishHunt` does write a status, that status is `voting` or
`finished`. -/
theorem finishHuntNextStatus_cases (mems : List (Option String))
    (subs : List SubPair) (t : HStatus)
    (h : finishHuntNextStatus mems subs = some t) :
    t = HStatus.voting ∨ t = HStatus.finished := by
  unfold finishHuntNextStatus at h
  split at h
  · split at h
    · exact Or.inl (by injection h with h; exact h.symm)
    · exact Or.inr (by injection h with h; exact h.symm)
  · exact absurd h (by simp)

/-- An operation firing with a fresh replica leaves the status unchanged
or moves it along one legal forward edge. -/
theorem applyOp_fresh_step_ok (op : Op) (s : HStatus)
    (hf : viewFresh op s = true) :
    s = applyOp op s ∨ forwardStep s (applyOp op s) := by
  cases op with
  | startGame view =>
      rw [viewFresh, decide_eq_true_iff] at hf
      subst hf
      cases s <;> simp [applyOp, forwardStep]
  | finishHunt view mems subs =>
      rw [viewFresh, decide_eq_true_iff] at hf
      subst hf
      cases s with
      | active =>
          rcases h : finishHuntNextStatus mems subs with _ | t
          · left; simp [applyOp, h]
          · rcases finishHuntNextStatus_cases mems subs t h with rfl | rfl <;>
              · right; simp [applyOp, h, forwardStep]
      | lobby => left; simp [applyOp]
      | voting => left; simp [applyOp]
      | finished => left; simp [applyOp]
  | advance view isLast =>
      rw [viewFresh, decide_eq_true_iff] at hf
      subst hf
      cases isLast
      · left; simp [applyOp]
      · cases s <;> simp [applyOp, transitionToFinishedStep, forwardStep]
  | viewResults view =>
      rw [viewFresh, decide_eq_true_iff] at hf
      subst hf
      cases s <;> simp [applyOp, transitionToFinishedStep, forwardStep]
  | castVote => exact Or.inl rfl
  | undoFinish => exact Or.inl rfl
  | joinOp => exact Or.inl rfl
  | submitOp => exact Or.inl rfl

/-- Whatever the replica, an operation that changes the status never
writes `lobby`: all three status writes target `active`, `voting` or
`finished`. -/
theorem applyOp_target_not_lobby (op : Op) (s : HStatus) :
    applyOp op s = s ∨ applyOp op s ≠ HStatus.lobby := by
  cases op with
  | startGame view =>
      by_cases hv : view = some HStatus.lobby
      · right; simp [applyOp, hv]
      · left; simp [applyOp, hv]
  | finishHunt view mems subs =>
      by_cases hv : view = none ∨ view = some HStatus.active
      · rcases h : finishHuntNextStatus mems subs with _ | t
        · left; simp [applyOp, hv, h]
        · right
          rcases finishHuntNextStatus_cases mems subs t h with rfl | rfl <;>
            simp [applyOp, hv, h]
      · left; simp [applyOp, hv]
  | advance view isLast =>
      by_cases hv : view = some HStatus.voting ∧ isLast = true
      · right; simp [applyOp, hv, transitionToFinishedStep]
      · left; simp [applyOp, hv]
  | viewResults view =>
      by_cases hv : view = some HStatus.voting
      · right; simp [applyOp, hv, transitionToFinishedStep]
      · left; simp [applyOp, hv]
  | castVote => exact Or.inl rfl
  | undoFinish => exact Or.inl rfl
  | joinOp => exact Or.inl rfl
  | submitOp => exact Or.inl rfl

/-- C3 (amended): when every status-writing operation fires from a
client whose replica matches the hunt's current status, consecutive
statuses coincide or follow one of the forward edges lobby → active,
active → voting, active → finished, voting → finished; and
unconditionally — stale or unloaded replicas included — every status
change lands in `active`, `voting` or `finished`, never back in `lobby`.
(With a stale or null replica the forward-only discipline itself fails:
see the counterexample.) -/
theorem c3_status_edges_amended (ops : List Op) (s : HStatus) :
    (freshRun s ops = true →
      List.Chain' (fun a b => a = b ∨ forwardStep a b) (statusTrace s ops)) ∧
    List.Chain' (fun a b => a = b ∨ b ≠ HStatus.lobby) (statusTrace s ops) := by
  constructor
  · induction ops generalizing s with
    | nil => intro _; simp [statusTrace]
    | cons op rest ih =>
        intro hf
        rw [freshRun, Bool.and_eq_true] at hf
        have hstep := applyOp_fresh_step_ok op s hf.1
        cases rest with
        | nil =>
            simpa [statusTrace] using hstep
        | cons op2 rest2 =>
            have htail := ih (applyOp op s) hf.2
            rw [statusTrace] at htail ⊢
            rw [statusTrace]
            exact List.Chain'.cons hstep htail
  · induction ops generalizing s with
    | nil => simp [statusTrace]
    | cons op rest ih =>
        have hstep : s = applyOp op s ∨ applyOp op s ≠ HStatus.lobby := by
          rcases applyOp_target_not_lobby op s with h | h
          · exact Or.inl h.symm
          · exact Or.inr h
        cases rest with
        | nil =>
            simpa [statusTrace] using hstep
        | cons op2 rest2 =>
            have htail := ih (applyOp op s)
            rw [statusTrace] at htail ⊢
            rw [statusTrace]
            exact List.Chain'.cons hstep htail

/-- C3 counterexample: a member whose hunt row has not loaded yet
(`view = none`) is shown the active-screen fallback; clicking Finish
while the hunt is still in `lobby` re-checks the ledgers (sole member
finished, one contested prompt) and writes `voting` — the transition
lobby → voting, outside the claimed edge set. -/
theorem c3_stale_finish_moves_lobby_to_voting :
    statusTrace HStatus.lobby
        [Op.finishHunt none [some "t1"] [⟨"p1", "a"⟩, ⟨"p1", "b"⟩]] =
      [HStatus.lobby, HStatus.voting] ∧
    ¬ List.Chain' (fun a b => a = b ∨ forwardStep a b)
        (statusTrace HStatus.lobby
          [Op.finishHunt none [some "t1"] [⟨"p1", "a"⟩, ⟨"p1", "b"⟩]]) := by
  have htrace : statusTrace HStatus.lobby
      [Op.finishHunt none [some "t1"] [⟨"p1", "a"⟩, ⟨"p1", "b"⟩]] =
        [HStatus.lobby, HStatus.voting] := by decide
  refine ⟨htrace, ?_⟩
  intro hchain
  rw [htrace, List.chain'_pair] at hchain
  rcases hchain with h | h
  · exact absurd h (by decide)
  · simp [forwardStep] at h

/-- C3 witness: a fresh run start-then-finish walks
lobby → active → finished along forward edges only. -/
theorem c3_status_edges_amended_witness :
    freshRun HStatus.lobby
        [Op.startGame (some HStatus.lobby),
         Op.finishHunt (some HStatus.active) [some "t1"] []] = true ∧
    List.Chain' (fun a b => a = b ∨ forwardStep a b)
      (statusTrace HStatus.lobby
        [Op.startGame (some HStatus.lobby),
         Op.finishHunt (some HStatus.active) [some "t1"] []]) :=
  ⟨by decide,
   (c3_status_edges_amended
      [Op.startGame (some HStatus.lobby),
       Op.finishHunt (some HStatus.active) [some "t1"] []]
      HStatus.lobby).1 (by decide)⟩

/-! ## Voting completion after N advances (C4) -/

/-- Running the sequencer from index `j` for the remaining
`d = N − j` prompts: no status write happens until the very last
`advance`, which performs exactly one. -/
theorem advanceFlags_run (ps : List String) :
    ∀ (d j : Nat) (v : List String), 1 ≤ d → j + d = ps.length →
      advanceFlags ps ⟨j, v⟩ d = List.replicate (d - 1) false ++ [true] := by
  intro d
  induction d with
  | zero => intro j v h; omega
  | succ d ih =>
      intro j v _ hjd
      have hjlt : j < ps.length := by omega
      obtain ⟨pid, hget⟩ : ∃ pid, ps.get? j = some pid :=
        ⟨ps.get ⟨j, hjlt⟩, List.get?_eq_get hjlt⟩
      rcases Nat.eq_zero_or_pos d with hd0 | hdpos
      · subst hd0
        rw [advanceFlags, advanceToNextPrompt, hget]
        simp only [if_neg (show ¬ j < ps.length - 1 by omega)]
        rfl
      · rw [advanceFlags, advanceToNextPrompt, hget]
        simp only [if_pos (show j < ps.length - 1 by omega)]
        rw [ih (j + 1) (v.insert pid) hdpos (by omega)]
        have hrep : List.replicate (d + 1 - 1) false =
            false :: List.replicate (d - 1) false := by
          have hd : d + 1 - 1 = (d - 1) + 1 := by omega
          rw [hd, List.replicate_succ]
        rw [hrep]
        rfl

/-- Folding the status writes of a run of non-writing advances changes
nothing. -/
theorem foldl_no_write (k : Nat) (s : HStatus) :
    List.foldl (fun s w => if w then transitionToFinishedStep s else s) s
      (List.replicate k false) = s := by
  induction k with
  | zero => rfl
  | succ k ih => rw [List.replicate_succ, List.foldl_cons]; exact ih

/-- C4: a voting client walking `n ≥ 1` prompts-with-submissions
performs the `voting → finished` status write on exactly the `n`-th
`advance` call — the first `n − 1` advances write nothing — and that
write leaves the hunt `finished`. -/
theorem c4_voting_completion (ps : List String) (n : Nat)
    (hn : ps.length = n) (h1 : 1 ≤ n) :
    advanceFlags ps ⟨0, []⟩ n = List.replicate (n - 1) false ++ [true] ∧
    (advanceFlags ps ⟨0, []⟩ n).foldl
        (fun s w => if w then transitionToFinishedStep s else s)
        HStatus.voting = HStatus.finished := by
  have hflags := advanceFlags_run ps n 0 [] h1 (by omega)
  refine ⟨hflags, ?_⟩
  rw [hflags, List.foldl_append, foldl_no_write]
  simp [transitionToFinishedStep]

/-- C4 witness: with two prompts carrying submissions, the first advance
writes nothing and the second performs the single `voting → finished`
write. -/
theorem c4_voting_completion_witness :
    ((["pa", "pb"] : List String).length = 2 ∧ 1 ≤ 2) ∧
    (advanceFlags ["pa", "pb"] ⟨0, []⟩ 2 =
        List.replicate (2 - 1) false ++ [true] ∧
      (advanceFlags ["pa", "pb"] ⟨0, []⟩ 2).foldl
          (fun s w => if w then transitionToFinishedStep s else s)
          HStatus.voting = HStatus.finished) :=
  ⟨⟨by decide, by decide⟩, c4_voting_completion ["pa", "pb"] 2 (by decide) (by decide)⟩

/-! ## Finish decision: skip voting when uncontested (C2) -/

/-- A list has at least two distinct values exactly when its
deduplication has length at least two. -/
theorem two_le_dedup_length_iff (l : List String) :
    2 ≤ l.dedup.length ↔ ∃ a ∈ l, ∃ b ∈ l, a ≠ b := by
  constructor
  · intro h
    match hd : l.dedup with
    | [] => rw [hd] at h; simp at h
    | [x] => rw [hd] at h; simp at h
    | x :: y :: tl =>
        have hnd := l.nodup_dedup
        rw [hd] at hnd
        have hxy : x ≠ y := by
          have := (List.nodup_cons.mp hnd).1
          intro hxyeq
          exact this (hxyeq ▸ List.mem_cons_self y tl)
        have hx : x ∈ l := List.mem_dedup.mp (hd ▸ List.mem_cons_self x (y :: tl))
        have hy : y ∈ l :=
          List.mem_dedup.mp (hd ▸ List.mem_cons.mpr (Or.inr (List.mem_cons_self y tl)))
        exact ⟨x, hx, y, hy, hxy⟩
  · rintro ⟨a, ha, b, hb, hne⟩
    have ha' : a ∈ l.dedup := List.mem_dedup.mpr ha
    have hb' : b ∈ l.dedup := List.mem_dedup.mpr hb
    match hd : l.dedup with
    | [] => rw [hd] at ha'; simp at ha'
    | [x] =>
        rw [hd] at ha' hb'
        simp at ha' hb'
        exact absurd (ha'.trans hb'.symm) hne
    | x :: y :: tl => simp

/-- `hasVotablePrompts` is true exactly when two distinct players have
submissions to a common prompt. -/
theorem hasVotablePrompts_iff (subs : List SubPair) :
    hasVotablePrompts subs = true ↔
      ∃ s1 ∈ subs, ∃ s2 ∈ subs,
        s1.prompt_id = s2.prompt_id ∧ s1.player_id ≠ s2.player_id := by
  unfold hasVotablePrompts
  rw [List.any_eq_true]
  constructor
  · rintro ⟨pid, -, hcnt⟩
    rw [decide_eq_true_iff] at hcnt
    obtain ⟨a, ha, b, hb, hab⟩ := (two_le_dedup_length_iff _).mp hcnt
    obtain ⟨s1, hs1, hs1a⟩ := List.exists_of_mem_map ha
    obtain ⟨s2, hs2, hs2b⟩ := List.exists_of_mem_map hb
    obtain ⟨hs1mem, hs1pid⟩ := List.mem_filter.mp hs1
    obtain ⟨hs2mem, hs2pid⟩ := List.mem_filter.mp hs2
    refine ⟨s1, hs1mem, s2, hs2mem, ?_, ?_⟩
    · rw [eq_of_beq hs1pid, eq_of_beq hs2pid]
    · rw [hs1a, hs2b]; exact hab
  · rintro ⟨s1, hs1, s2, hs2, hpid, hply⟩
    refine ⟨s1.prompt_id, ?_, ?_⟩
    · exact List.mem_dedup.mpr (List.mem_map.mpr ⟨s1, hs1, rfl⟩)
    · rw [decide_eq_true_iff]
      apply (two_le_dedup_length_iff _).mpr
      refine ⟨s1.player_id, ?_, s2.player_id, ?_, hply⟩
      · exact List.mem_map.mpr
          ⟨s1, List.mem_filter.mpr ⟨hs1, by simp⟩, rfl⟩
      · exact List.mem_map.mpr
          ⟨s2, List.mem_filter.mpr ⟨hs2, by simp [hpid]⟩, rfl⟩

/-- C2: when the finishing player's re-check sees a non-empty member
list whose every `finished_at` is set, the hunt's status is written
directly to `finished` if no prompt has two distinct submitting players,
and to `voting` otherwise. -/
theorem c2_all_finished_status_decision (mems : List (Option String))
    (subs : List SubPair) (hne : mems ≠ [])
    (hall : ∀ m ∈ mems, m.isSome = true) :
    ((¬ ∃ s1 ∈ subs, ∃ s2 ∈ subs,
        s1.prompt_id = s2.prompt_id ∧ s1.player_id ≠ s2.player_id) →
      finishHuntNextStatus mems subs = some HStatus.finished) ∧
    ((∃ s1 ∈ subs, ∃ s2 ∈ subs,
        s1.prompt_id = s2.prompt_id ∧ s1.player_id ≠ s2.player_id) →
      finishHuntNextStatus mems subs = some HStatus.voting) := by
  have hcond : (mems.all (fun m => m.isSome) && !mems.isEmpty) = true := by
    rw [Bool.and_eq_true]
    constructor
    · exact List.all_eq_true.mpr hall
    · cases mems with
      | nil => exact absurd rfl hne
      | cons m ms => rfl
  constructor
  · intro hno
    have hv : hasVotablePrompts subs = false := by
      rw [← Bool.not_eq_true]
      intro hvt
      exact hno ((hasVotablePrompts_iff subs).mp hvt)
    unfold finishHuntNextStatus
    rw [hcond, if_pos rfl, hv, if_neg (by simp)]
  · intro hyes
    have hv : hasVotablePrompts subs = true :=
      (hasVotablePrompts_iff subs).mpr hyes
    unfold finishHuntNextStatus
    rw [hcond, if_pos rfl, hv, if_pos rfl]

/-- C2 witness: two members both finished; the only prompt has two
submissions by the same single player, so the decision skips voting and
goes straight to `finished`. -/
theorem c2_all_finished_status_decision_witness :
    (([some "t1", some "t2"] : List (Option String)) ≠ [] ∧
      (∀ m ∈ ([some "t1", some "t2"] : List (Option String)), m.isSome = true) ∧
      ¬ ∃ s1 ∈ [(⟨"p1", "a"⟩ : SubPair), ⟨"p1", "a"⟩],
          ∃ s2 ∈ [(⟨"p1", "a"⟩ : SubPair), ⟨"p1", "a"⟩],
            s1.prompt_id = s2.prompt_id ∧ s1.player_id ≠ s2.player_id) ∧
    finishHuntNextStatus [some "t1", some "t2"] [⟨"p1", "a"⟩, ⟨"p1", "a"⟩] =
      some HStatus.finished :=
  ⟨⟨by decide, by decide, by decide⟩,
   (c2_all_finished_status_decision [some "t1", some "t2"]
      [⟨"p1", "a"⟩, ⟨"p1", "a"⟩] (by decide) (by decide)).1 (by decide)⟩

/-! ## Membership join idempotence (C5) -/

/-- A join against a ledger that already holds the `(hunt, player)` row
is a no-op. -/
theorem joinHunt_noop_of_mem (L : List MRow) (h p n r : String)
    (hmem : ∃ r0 ∈ L, r0.hunt_id = h ∧ r0.player_id = p) :
    joinHunt L h p n r = L := by
  unfold joinHunt
  rw [if_pos]
  rw [List.any_eq_true]
  obtain ⟨r0, hr0, hh, hp⟩ := hmem
  exact ⟨r0, hr0, by simp [hh, hp]⟩

/-- Replaying any further joins over a ledger already containing the
`(hunt, player)` row changes nothing. -/
theorem joinHunt_foldl_noop (h p : String) :
    ∀ (args : List (String × String)) (L : List MRow),
      (∃ r0 ∈ L, r0.hunt_id = h ∧ r0.player_id = p) →
      args.foldl (fun L a => joinHunt L h p a.1 a.2) L = L := by
  intro args
  induction args with
  | nil => intro L _; rfl
  | cons a rest ih =>
      intro L hmem
      rw [List.foldl_cons, joinHunt_noop_of_mem L h p a.1 a.2 hmem]
      exact ih L hmem

/-- C5: for every sequence of joins with the same `(hunt_id, player_id)`
over a ledger not yet containing that pair, the ledger ends up with
exactly one row for the pair, carrying the display name and role of the
first join — later joins never overwrite it (no host → player
downgrade). -/
theorem c5_join_once_keeps_first_role (h p : String) (first : String × String)
    (rest : List (String × String)) (L0 : List MRow)
    (h0 : ∀ r ∈ L0, ¬(r.hunt_id = h ∧ r.player_id = p)) :
    ((first :: rest).foldl (fun L a => joinHunt L h p a.1 a.2) L0).filter
        (fun r => r.hunt_id == h && r.player_id == p) =
      [⟨h, p, first.1, first.2⟩] := by
  rw [List.foldl_cons]
  have hins : joinHunt L0 h p first.1 first.2 = L0 ++ [⟨h, p, first.1, first.2⟩] := by
    unfold joinHunt
    rw [if_neg]
    intro hany
    rw [List.any_eq_true] at hany
    obtain ⟨r0, hr0, hr0p⟩ := hany
    rw [Bool.and_eq_true, beq_iff_eq, beq_iff_eq] at hr0p
    exact h0 r0 hr0 hr0p
  rw [hins, joinHunt_foldl_noop h p rest _
    ⟨⟨h, p, first.1, first.2⟩, by simp, rfl, rfl⟩]
  rw [List.filter_append]
  have h0' : L0.filter (fun r => r.hunt_id == h && r.player_id == p) = [] := by
    rw [List.filter_eq_nil_iff]
    intro r hr
    simp only [Bool.and_eq_true, beq_iff_eq]
    exact fun hc => h0 r hr hc
  rw [h0']
  simp

/-- C5 witness: a host join followed by a plain player join for the same
pair leaves one row whose role is still `host`. -/
theorem c5_join_once_keeps_first_role_witness :
    (∀ r ∈ ([] : List MRow), ¬(r.hunt_id = "H" ∧ r.player_id = "P")) ∧
    (([("Ann", "host"), ("Ann", "player")] : List (String × String)).foldl
        (fun L a => joinHunt L "H" "P" a.1 a.2) []).filter
        (fun r => r.hunt_id == "H" && r.player_id == "P") =
      [⟨"H", "P", "Ann", "host"⟩] :=
  ⟨by decide,
   c5_join_once_keeps_first_role "H" "P" ("Ann", "host") [("Ann", "player")] []
     (by decide)⟩

/-! ## ensureSubmission idempotence (C7) -/

/-- C7: from a client state with no cached id and no submission row for
the `(hunt, player, prompt)` triple, calling `ensureSubmission` twice
returns the same id both times, the second call adds no row, and exactly
one row for the triple exists afterwards. -/
theorem c7_ensure_submission_idempotent (st : CState) (h p pid : String)
    (hc : st.cache.lookup pid = none)
    (hdb : ∀ r ∈ st.db, ¬(r.hunt_id = h ∧ r.player_id = p ∧ r.prompt_id = pid)) :
    (ensureSubmission st h p pid).1 =
      (ensureSubmission (ensureSubmission st h p pid).2 h p pid).1 ∧
    (ensureSubmission (ensureSubmission st h p pid).2 h p pid).2.db =
      (ensureSubmission st h p pid).2.db ∧
    ((ensureSubmission st h p pid).2.db.filter
        (fun r => r.hunt_id == h && r.player_id == p && r.prompt_id == pid)).length
      = 1 := by
  have h1 : ensureSubmission st h p pid =
      (st.nextId,
        ⟨(pid, st.nextId) :: st.cache,
         st.db ++ [⟨st.nextId, h, p, pid, none⟩],
         st.nextId + 1⟩) := by
    unfold ensureSubmission
    rw [hc]
  have h2 : (ensureSubmission st h p pid).2.cache.lookup pid = some st.nextId := by
    rw [h1]
    simp [List.lookup]
  have hcached : ∀ (s : CState) (sid : Nat), s.cache.lookup pid = some sid →
      ensureSubmission s h p pid = (sid, s) := by
    intro s sid hs
    unfold ensureSubmission
    rw [hs]
  have h3 : ensureSubmission (ensureSubmission st h p pid).2 h p pid =
      (st.nextId, (ensureSubmission st h p pid).2) :=
    hcached _ st.nextId h2
  refine ⟨?_, ?_, ?_⟩
  · rw [h3, h1]
  · rw [h3]
  · rw [h1]
    simp only [List.filter_append]
    have hnil : st.db.filter
        (fun r => r.hunt_id == h && r.player_id == p && r.prompt_id == pid) = [] := by
      rw [List.filter_eq_nil_iff]
      intro r hr
      simp only [Bool.and_eq_true, beq_iff_eq]
      intro hc2
      exact hdb r hr ⟨hc2.1.1, hc2.1.2, hc2.2⟩
    rw [hnil]
    simp

/-- C7 witness: from the empty client state a double `ensureSubmission`
yields the same id twice and a single row. -/
theorem c7_ensure_submission_idempotent_witness :
    ((⟨[], [], 0⟩ : CState).cache.lookup "pr" = none ∧
      (∀ r ∈ (⟨[], [], 0⟩ : CState).db,
        ¬(r.hunt_id = "H" ∧ r.player_id = "P" ∧ r.prompt_id = "pr"))) ∧
    ((ensureSubmission ⟨[], [], 0⟩ "H" "P" "pr").1 =
        (ensureSubmission (ensureSubmission ⟨[], [], 0⟩ "H" "P" "pr").2 "H" "P" "pr").1 ∧
      (ensureSubmission (ensureSubmission ⟨[], [], 0⟩ "H" "P" "pr").2 "H" "P" "pr").2.db =
        (ensureSubmission ⟨[], [], 0⟩ "H" "P" "pr").2.db ∧
      ((ensureSubmission ⟨[], [], 0⟩ "H" "P" "pr").2.db.filter
          (fun r => r.hunt_id == "H" && r.player_id == "P" && r.prompt_id == "pr")).length
        = 1) :=
  ⟨⟨by decide, by decide⟩,
   c7_ensure_submission_idempotent ⟨[], [], 0⟩ "H" "P" "pr" (by decide) (by decide)⟩

/-! ## Bounded signed-URL retry (C8) -/

/-- When every attempt in the remaining budget fails, the loop returns
null. -/
theorem retryGo_all_fail (attempt : Nat → Option String) (d : Nat) :
    ∀ (rem i : Nat), (∀ k, k < rem → attempt (i + k) = none) →
      (retryGo attempt d i rem).1 = none := by
  intro rem
  induction rem with
  | zero => intro i _; rfl
  | succ rem ih =>
      intro i h
      have h0 : attempt i = none := by
        have := h 0 (by omega)
        simpa using this
      rw [retryGo, h0]
      exact ih (i + 1) (fun k hk => by
        have := h (k + 1) (by omega)
        rwa [show i + (k + 1) = i + 1 + k by omega] at this)

/-- The loop returns the first successful attempt within the budget. -/
theorem retryGo_first_success (attempt : Nat → Option String) (d : Nat) :
    ∀ (rem i j : Nat) (u : String), j < rem →
      (∀ k, k < j → attempt (i + k) = none) → attempt (i + j) = some u →
      (retryGo attempt d i rem).1 = some u := by
  intro rem
  induction rem with
  | zero => intro i j u hj; omega
  | succ rem ih =>
      intro i j u hj hbefore hsucc
      cases j with
      | zero =>
          have h0 : attempt i = some u := by simpa using hsucc
          rw [retryGo, h0]
      | succ j =>
          have h0 : attempt i = none := by
            have := hbefore 0 (by omega)
            simpa using this
          rw [retryGo, h0]
          exact ih (i + 1) j u (by omega)
            (fun k hk => by
              have := hbefore (k + 1) (by omega)
              rwa [show i + (k + 1) = i + 1 + k by omega] at this)
            (by rwa [show i + (j + 1) = i + 1 + j by omega] at hsucc)

/-- The loop makes at most `rem` URL-generation attempts. -/
theorem retryGo_attempts_le (attempt : Nat → Option String) (d : Nat) :
    ∀ (rem i : Nat), ((retryGo attempt d i rem).2.countP isAttEv) ≤ rem := by
  intro rem
  induction rem with
  | zero => intro i; simp [retryGo]
  | succ rem ih =>
      intro i
      rw [retryGo]
      cases hat : attempt i with
      | some u =>
          have h1 : List.countP isAttEv [Ev.att i] = 1 := by
            simp [List.countP_cons, isAttEv]
          rw [h1]
          omega
      | none =>
          have hih := ih (i + 1)
          have h1 : List.countP isAttEv
              (Ev.att i :: Ev.slept d :: (retryGo attempt d (i + 1) rem).2) =
              List.countP isAttEv (retryGo attempt d (i + 1) rem).2 + 1 := by
            simp [List.countP_cons, isAttEv]
          show List.countP isAttEv
              (Ev.att i :: Ev.slept d :: (retryGo attempt d (i + 1) rem).2) ≤ rem + 1
          rw [h1]
          omega

/-- Every sleep performed by the loop lasts exactly its fixed delay. -/
theorem retryGo_sleep_delay (attempt : Nat → Option String) (d : Nat) :
    ∀ (rem i m : Nat), Ev.slept m ∈ (retryGo attempt d i rem).2 → m = d := by
  intro rem
  induction rem with
  | zero => intro i m hm; simp [retryGo] at hm
  | succ rem ih =>
      intro i m hm
      rw [retryGo] at hm
      cases hat : attempt i with
      | some u =>
          rw [hat] at hm
          simp at hm
      | none =>
          rw [hat] at hm
          have hm' : Ev.slept m ∈
              Ev.att i :: Ev.slept d :: (retryGo attempt d (i + 1) rem).2 := hm
          rcases List.mem_cons.mp hm' with h1 | h2
          · exact absurd h1 (by simp)
          · rcases List.mem_cons.mp h2 with h3 | h4
            · injection h3
            · exact ih (i + 1) m h4

/-- C8: `getSignedUrlWithRetry` makes at most 6 attempts, sleeps exactly
400 ms between attempts, returns the first successfully generated URL,
and returns null (never throwing or looping) when all 6 attempts fail. -/
theorem c8_signed_url_retry_bounded (attempt : Nat → Option String) :
    ((getSignedUrlWithRetry attempt).2.countP isAttEv ≤ 6) ∧
    (∀ m, Ev.slept m ∈ (getSignedUrlWithRetry attempt).2 → m = 400) ∧
    ((∀ i, i < 6 → attempt i = none) → (getSignedUrlWithRetry attempt).1 = none) ∧
    (∀ j u, j < 6 → (∀ k, k < j → attempt k = none) → attempt j = some u →
      (getSignedUrlWithRetry attempt).1 = some u) := by
  refine ⟨?_, ?_, ?_, ?_⟩
  · exact retryGo_attempts_le attempt 400 6 0
  · exact fun m hm => retryGo_sleep_delay attempt 400 6 0 m hm
  · intro h
    exact retryGo_all_fail attempt 400 6 0 (fun k hk => by simpa using h k hk)
  · intro j u hj hbefore hsucc
    exact retryGo_first_success attempt 400 6 0 j u hj
      (fun k hk => by simpa using hbefore k hk) (by simpa using hsucc)

/-- C8 witness: a blob store that keeps failing makes the retry return
null after its bounded budget. -/
theorem c8_signed_url_retry_bounded_witness :
    (∀ i, i < 6 → (fun _ => (none : Option String)) i = none) ∧
    (getSignedUrlWithRetry (fun _ => (none : Option String))).1 = none :=
  ⟨by decide,
   (c8_signed_url_retry_bounded (fun _ => (none : Option String))).2.2.1 (by decide)⟩

/-! ## Results depend only on this hunt's votes (C10) -/

/-- The winner loop only consults the vote counts of the submissions it
walks. -/
theorem winnerGo_congr (cnt1 cnt2 : String → Nat) :
    ∀ (l : List Submission) (maxV : Nat) (w : Option (Submission × Nat)),
      (∀ s ∈ l, cnt1 s.sub_id = cnt2 s.sub_id) →
      winnerGo cnt1 l maxV w = winnerGo cnt2 l maxV w := by
  intro l
  induction l with
  | nil => intro _ _ _; rfl
  | cons s rest ih =>
      intro maxV w h
      have hs : cnt1 s.sub_id = cnt2 s.sub_id := h s (by simp)
      rw [winnerGo, winnerGo, hs]
      have hrest : ∀ t ∈ rest, cnt1 t.sub_id = cnt2 t.sub_id :=
        fun t ht => h t (by simp [ht])
      split
      · exact ih _ _ hrest
      · exact ih _ _ hrest

/-- The leaderboard accumulation only consults the vote counts of the
submissions it folds over. -/
theorem playerTotals_foldl_congr (cnt1 cnt2 : String → Nat) :
    ∀ (subs : List Submission) (acc : List PlayerTotal),
      (∀ s ∈ subs, cnt1 s.sub_id = cnt2 s.sub_id) →
      subs.foldl (fun a s => addVotes a s.player_id (cnt1 s.sub_id)) acc =
      subs.foldl (fun a s => addVotes a s.player_id (cnt2 s.sub_id)) acc := by
  intro subs
  induction subs with
  | nil => intro _ _; rfl
  | cons s rest ih =>
      intro acc h
      rw [List.foldl_cons, List.foldl_cons, h s (by simp)]
      exact ih _ (fun t ht => h t (by simp [ht]))

/-- C10: although the votes fetch is not scoped by hunt, the computed
results (per-prompt winners and leaderboard) agree for any two vote
table snapshots that agree on the vote counts of this hunt's
submissions. -/
theorem c10_results_scoped_to_hunt_votes (prompts : List Prompt)
    (subs : List Submission) (votes1 votes2 : List Vote)
    (h : ∀ s ∈ subs, voteCount votes1 s.sub_id = voteCount votes2 s.sub_id) :
    huntResults prompts subs votes1 = huntResults prompts subs votes2 := by
  unfold huntResults
  refine Prod.ext ?_ ?_
  · show promptWinners prompts subs (voteCount votes1) =
      promptWinners prompts subs (voteCount votes2)
    unfold promptWinners
    apply List.map_congr_left
    intro p _
    refine congrArg (Prod.mk p) ?_
    unfold winnerForPrompt
    exact winnerGo_congr _ _ _ 0 none
      (fun s hs => h s (List.mem_filter.mp hs).1)
  · show leaderboardOf subs (voteCount votes1) = leaderboardOf subs (voteCount votes2)
    unfold leaderboardOf playerTotals
    rw [playerTotals_foldl_congr (voteCount votes1) (voteCount votes2) subs [] h]

/-- C10 witness: a foreign hunt's vote row present in one snapshot and
absent in the other leaves this hunt's results identical. -/
theorem c10_results_scoped_to_hunt_votes_witness :
    (∀ s ∈ [(⟨"s1", "p1", "a"⟩ : Submission)],
        voteCount [⟨"foreign", "z", "best"⟩] s.sub_id = voteCount [] s.sub_id) ∧
    huntResults [⟨"p1", "find a duck"⟩] [⟨"s1", "p1", "a"⟩]
        [⟨"foreign", "z", "best"⟩] =
      huntResults [⟨"p1", "find a duck"⟩] [⟨"s1", "p1", "a"⟩] [] :=
  ⟨by decide,
   c10_results_scoped_to_hunt_votes [⟨"p1", "find a duck"⟩] [⟨"s1", "p1", "a"⟩]
     [⟨"foreign", "z", "best"⟩] [] (by decide)⟩

/-! ## Leaderboard (C6) -/

/-- Adding votes to a key raises exactly that key's total. -/
theorem totalIn_addVotes_self (pid : String) (v : Nat) :
    ∀ l : List PlayerTotal, totalIn (addVotes l pid v) pid = totalIn l pid + v := by
  intro l
  induction l with
  | nil => simp [addVotes, totalIn]
  | cons e rest ih =>
      by_cases he : e.player_id = pid
      · rw [addVotes, if_pos he, totalIn, if_pos he, totalIn, if_pos he]
      · rw [addVotes, if_neg he, totalIn, if_neg he, totalIn, if_neg he]
        exact ih

/-- Adding votes to one key leaves every other key's total unchanged. -/
theorem totalIn_addVotes_other (pid : String) (v : Nat) (q : String)
    (hq : q ≠ pid) :
    ∀ l : List PlayerTotal, totalIn (addVotes l pid v) q = totalIn l q := by
  intro l
  induction l with
  | nil => simp [addVotes, totalIn, Ne.symm hq]
  | cons e rest ih =>
      by_cases he : e.player_id = pid
      · have hne : ¬ e.player_id = q := fun h => hq (h ▸ he ▸ rfl)
        rw [addVotes, if_pos he, totalIn, if_neg hne, totalIn, if_neg hne]
      · by_cases heq : e.player_id = q
        · rw [addVotes, if_neg he, totalIn, if_pos heq, totalIn, if_pos heq]
        · rw [addVotes, if_neg he, totalIn, if_neg heq, totalIn, if_neg heq]
          exact ih

/-- Key membership after an accumulator update. -/
theorem mem_keys_addVotes (pid : String) (v : Nat) (q : String) :
    ∀ l : List PlayerTotal,
      (q ∈ (addVotes l pid v).map (fun e => e.player_id) ↔
        q = pid ∨ q ∈ l.map (fun e => e.player_id)) := by
  intro l
  induction l with
  | nil => simp [addVotes]
  | cons e rest ih =>
      by_cases he : e.player_id = pid
      · rw [addVotes, if_pos he]
        simp only [List.map_cons, List.mem_cons]
        rw [he]
        tauto
      · rw [addVotes, if_neg he]
        simp only [List.map_cons, List.mem_cons]
        rw [ih]
        tauto

/-- Updating an existing key leaves the key sequence unchanged. -/
theorem keys_addVotes_of_mem (pid : String) (v : Nat) :
    ∀ l : List PlayerTotal, pid ∈ l.map (fun e => e.player_id) →
      (addVotes l pid v).map (fun e => e.player_id) =
        l.map (fun e => e.player_id) := by
  intro l
  induction l with
  | nil => intro h; simp at h
  | cons e rest ih =>
      intro h
      by_cases he : e.player_id = pid
      · rw [addVotes, if_pos he]
        simp
      · rw [addVotes, if_neg he]
        simp only [List.map_cons, List.cons.injEq, true_and]
        apply ih
        simp only [List.map_cons, List.mem_cons] at h
        rcases h with h | h
        · exact absurd h.symm he
        · exact h

/-- Inserting a new key appends it after every existing key. -/
theorem keys_addVotes_of_not_mem (pid : String) (v : Nat) :
    ∀ l : List PlayerTotal, pid ∉ l.map (fun e => e.player_id) →
      (addVotes l pid v).map (fun e => e.player_id) =
        l.map (fun e => e.player_id) ++ [pid] := by
  intro l
  induction l with
  | nil => intro _; simp [addVotes]
  | cons e rest ih =>
      intro h
      simp only [List.map_cons, List.mem_cons] at h
      push_neg at h
      rw [addVotes, if_neg (fun hc => h.1 hc.symm)]
      simp only [List.map_cons, List.cons_append, List.cons.injEq, true_and]
      exact ih h.2

/-- The accumulator update preserves key distinctness. -/
theorem keys_addVotes_nodup (pid : String) (v : Nat) (l : List PlayerTotal)
    (h : (l.map (fun e => e.player_id)).Nodup) :
    ((addVotes l pid v).map (fun e => e.player_id)).Nodup := by
  by_cases hm : pid ∈ l.map (fun e => e.player_id)
  · rw [keys_addVotes_of_mem pid v l hm]
    exact h
  · rw [keys_addVotes_of_not_mem pid v l hm]
    rw [List.nodup_append]
    exact ⟨h, List.nodup_singleton pid, by
      intro a ha
      simp only [List.mem_singleton]
      intro hapid
      exact hm (hapid ▸ ha)⟩

/-- In an accumulator with distinct keys, every entry's stored total is
its key's lookup total. -/
theorem entry_total_eq_totalIn :
    ∀ l : List PlayerTotal, (l.map (fun e => e.player_id)).Nodup →
      ∀ e ∈ l, e.total_votes = totalIn l e.player_id := by
  intro l
  induction l with
  | nil => intro _ e he; simp at he
  | cons e0 rest ih =>
      intro hnd e he
      simp only [List.map_cons, List.nodup_cons] at hnd
      rcases List.mem_cons.mp he with rfl | hrest
      · rw [totalIn, if_pos rfl]
      · have hne : ¬ e0.player_id = e.player_id := by
          intro hc
          exact hnd.1 (hc ▸ List.mem_map.mpr ⟨e, hrest, rfl⟩)
        rw [totalIn, if_neg hne]
        exact ih hnd.2 e hrest

/-- The accumulation loop adds, per key, exactly the vote counts of the
submissions authored under that key. -/
theorem foldl_totalIn (cnt : String → Nat) :
    ∀ (todo : List Submission) (acc : List PlayerTotal) (q : String),
      totalIn (todo.foldl (fun a s => addVotes a s.player_id (cnt s.sub_id)) acc) q =
        totalIn acc q +
          ((todo.filter (fun s => s.player_id == q)).map (fun s => cnt s.sub_id)).sum := by
  intro todo
  induction todo with
  | nil => intro acc q; simp
  | cons s rest ih =>
      intro acc q
      rw [List.foldl_cons, ih]
      by_cases hq : s.player_id = q
      · rw [hq, totalIn_addVotes_self,
          List.filter_cons_of_pos (by simp [hq]), List.map_cons, List.sum_cons]
        omega
      · rw [totalIn_addVotes_other _ _ q (fun h => hq h.symm),
          List.filter_cons_of_neg (by simp [hq])]

/-- The accumulation loop preserves key distinctness. -/
theorem foldl_keys_nodup (cnt : String → Nat) :
    ∀ (todo : List Submission) (acc : List PlayerTotal),
      (acc.map (fun e => e.player_id)).Nodup →
      (((todo.foldl (fun a s => addVotes a s.player_id (cnt s.sub_id)) acc)).map
        (fun e => e.player_id)).Nodup := by
  intro todo
  induction todo with
  | nil => intro acc h; exact h
  | cons s rest ih =>
      intro acc h
      rw [List.foldl_cons]
      exact ih _ (keys_addVotes_nodup _ _ _ h)

/-- The accumulated keys are the starting keys plus the authors seen. -/
theorem foldl_mem_keys (cnt : String → Nat) :
    ∀ (todo : List Submission) (acc : List PlayerTotal) (q : String),
      (q ∈ ((todo.foldl (fun a s => addVotes a s.player_id (cnt s.sub_id)) acc)).map
          (fun e => e.player_id) ↔
        q ∈ acc.map (fun e => e.player_id) ∨
          q ∈ todo.map (fun s => s.player_id)) := by
  intro todo
  induction todo with
  | nil => intro acc q; simp
  | cons s rest ih =>
      intro acc q
      rw [List.foldl_cons, ih, mem_keys_addVotes]
      simp only [List.map_cons, List.mem_cons]
      tauto

/-- `insertDesc` permutes consing. -/
theorem insertDesc_perm (x : PlayerTotal) :
    ∀ l : List PlayerTotal, (insertDesc x l).Perm (x :: l) := by
  intro l
  induction l with
  | nil => exact List.Perm.refl [x]
  | cons y ys ih =>
      rw [insertDesc]
      by_cases hc : y.total_votes ≤ x.total_votes
      · rw [if_pos hc]
      · rw [if_neg hc]
        exact (ih.cons y).trans (List.Perm.swap x y ys)

/-- `sortDesc` is a permutation. -/
theorem sortDesc_perm : ∀ l : List PlayerTotal, (sortDesc l).Perm l := by
  intro l
  induction l with
  | nil => exact List.Perm.refl []
  | cons x xs ih =>
      rw [sortDesc]
      exact (insertDesc_perm x (sortDesc xs)).trans (ih.cons x)

/-- Membership through `insertDesc`. -/
theorem mem_insertDesc (x z : PlayerTotal) (l : List PlayerTotal) :
    z ∈ insertDesc x l ↔ z = x ∨ z ∈ l := by
  rw [(insertDesc_perm x l).mem_iff]
  simp

/-- `insertDesc` preserves descending order. -/
theorem insertDesc_sorted (x : PlayerTotal) :
    ∀ l : List PlayerTotal,
      l.Pairwise (fun a b => b.total_votes ≤ a.total_votes) →
      (insertDesc x l).Pairwise (fun a b => b.total_votes ≤ a.total_votes) := by
  intro l
  induction l with
  | nil => intro _; exact List.pairwise_singleton _ x
  | cons y ys ih =>
      intro h
      rw [List.pairwise_cons] at h
      rw [insertDesc]
      by_cases hc : y.total_votes ≤ x.total_votes
      · rw [if_pos hc, List.pairwise_cons]
        refine ⟨?_, List.pairwise_cons.mpr h⟩
        intro z hz
        rcases List.mem_cons.mp hz with rfl | hz'
        · exact hc
        · exact le_trans (h.1 z hz') hc
      · rw [if_neg hc, List.pairwise_cons]
        refine ⟨?_, ih h.2⟩
        intro z hz
        rcases (mem_insertDesc x z ys).mp hz with rfl | hz'
        · omega
        · exact h.1 z hz'

/-- `sortDesc` sorts by descending total. -/
theorem sortDesc_sorted :
    ∀ l : List PlayerTotal,
      (sortDesc l).Pairwise (fun a b => b.total_votes ≤ a.total_votes) := by
  intro l
  induction l with
  | nil => simp [sortDesc]
  | cons x xs ih =>
      rw [sortDesc]
      exact insertDesc_sorted x (sortDesc xs) ih

/-- `insertDesc` splits its input at the insertion point, passing only
over strictly larger totals. -/
theorem insertDesc_split (x : PlayerTotal) :
    ∀ l : List PlayerTotal, ∃ l1 l2, l = l1 ++ l2 ∧
      insertDesc x l = l1 ++ x :: l2 ∧
      ∀ y ∈ l1, x.total_votes < y.total_votes := by
  intro l
  induction l with
  | nil => exact ⟨[], [], rfl, rfl, by simp⟩
  | cons y ys ih =>
      by_cases hc : y.total_votes ≤ x.total_votes
      · exact ⟨[], y :: ys, rfl, by rw [insertDesc, if_pos hc]; rfl, by simp⟩
      · obtain ⟨l1, l2, hl, hins, hgt⟩ := ih
        refine ⟨y :: l1, l2, by rw [hl, List.cons_append], ?_, ?_⟩
        · rw [insertDesc, if_neg hc, hins, List.cons_append]
        · intro z hz
          rcases List.mem_cons.mp hz with rfl | hz'
          · omega
          · exact hgt z hz'

/-- Stability of `sortDesc`: any relation holding pairwise on the input
still holds, on the output, between elements with equal totals. -/
theorem sortDesc_stable_pairwise (S : PlayerTotal → PlayerTotal → Prop) :
    ∀ l : List PlayerTotal, l.Pairwise S →
      (sortDesc l).Pairwise
        (fun a b => a.total_votes = b.total_votes → S a b) := by
  intro l
  induction l with
  | nil => intro _; exact List.Pairwise.nil
  | cons x xs ih =>
      intro h
      rw [List.pairwise_cons] at h
      have hm := ih h.2
      rw [sortDesc]
      obtain ⟨l1, l2, hl, hins, hgt⟩ := insertDesc_split x (sortDesc xs)
      rw [hins]
      rw [hl, List.pairwise_append] at hm
      rw [List.pairwise_append]
      refine ⟨hm.1, ?_, ?_⟩
      · rw [List.pairwise_cons]
        refine ⟨?_, hm.2.1⟩
        intro z hz _
        have hzxs : z ∈ xs := by
          have hzsort : z ∈ sortDesc xs := by
            rw [hl]
            exact List.mem_append.mpr (Or.inr hz)
          exact (sortDesc_perm xs).mem_iff.mp hzsort
        exact h.1 z hzxs
      · intro a ha b hb
        rcases List.mem_cons.mp hb with rfl | hb'
        · intro heq
          exact absurd heq (by have := hgt a ha; omega)
        · exact hm.2.2 a ha b hb'

/-- The accumulator's keys appear in strictly increasing order of first
submission occurrence: walking `todo` after `done` (with `full = done ++
todo` the whole input) keeps the keys of `acc` — exactly the authors of
`done` — ordered by first-occurrence index in `full`. -/
theorem foldl_keys_encounter_order (cnt : String → Nat) (full : List Submission) :
    ∀ (todo done : List Submission) (acc : List PlayerTotal),
      full = done ++ todo →
      (∀ q, q ∈ acc.map (fun e => e.player_id) ↔
        q ∈ done.map (fun s => s.player_id)) →
      (acc.map (fun e => e.player_id)).Pairwise
        (fun q1 q2 => (full.map (fun s => s.player_id)).indexOf q1 <
          (full.map (fun s => s.player_id)).indexOf q2) →
      ((todo.foldl (fun a s => addVotes a s.player_id (cnt s.sub_id)) acc).map
        (fun e => e.player_id)).Pairwise
        (fun q1 q2 => (full.map (fun s => s.player_id)).indexOf q1 <
          (full.map (fun s => s.player_id)).indexOf q2) := by
  intro todo
  induction todo with
  | nil => intro done acc _ _ hpw; exact hpw
  | cons s rest ih =>
      intro done acc hfull hkeys hpw
      rw [List.foldl_cons]
      apply ih (done ++ [s]) _ (by rw [hfull, List.append_assoc]; rfl)
      · intro q
        rw [mem_keys_addVotes, hkeys q]
        simp only [List.map_append, List.map_cons, List.map_nil, List.mem_append,
          List.mem_singleton]
        tauto
      · by_cases hmem : s.player_id ∈ acc.map (fun e => e.player_id)
        · rw [keys_addVotes_of_mem _ _ _ hmem]
          exact hpw
        · rw [keys_addVotes_of_not_mem _ _ _ hmem]
          rw [List.pairwise_append]
          refine ⟨hpw, List.pairwise_singleton _ _, ?_⟩
          intro q hq b hb
          rw [List.mem_singleton] at hb
          subst hb
          have hqdone : q ∈ done.map (fun s => s.player_id) := (hkeys q).mp hq
          have hsdone : s.player_id ∉ done.map (fun s => s.player_id) :=
            fun hc => hmem ((hkeys _).mpr hc)
          have hsplit : full.map (fun s => s.player_id) =
              done.map (fun s => s.player_id) ++
                s.player_id :: rest.map (fun s => s.player_id) := by
            rw [hfull]
            simp
          rw [hsplit, List.indexOf_append_of_mem hqdone,
            List.indexOf_append_of_not_mem hsdone, List.indexOf_cons_self]
          have := List.indexOf_lt_length.mpr hqdone
          omega

/-- C6: the leaderboard gives every submitting player (exactly once) the
sum of the vote counts of all submissions they authored, is sorted in
descending order of that total, and leaves equal totals ordered by the
players' first encounter in the submission input. -/
theorem c6_leaderboard_totals_sorted_stable (subs : List Submission)
    (cnt : String → Nat) :
    (∀ e ∈ leaderboardOf subs cnt,
        e.total_votes =
          ((subs.filter (fun s => s.player_id == e.player_id)).map
            (fun s => cnt s.sub_id)).sum) ∧
    (∀ q : String,
        (∃ e ∈ leaderboardOf subs cnt, e.player_id = q) ↔
        (∃ s ∈ subs, s.player_id = q)) ∧
    ((leaderboardOf subs cnt).map (fun e => e.player_id)).Nodup ∧
    (leaderboardOf subs cnt).Pairwise (fun a b => b.total_votes ≤ a.total_votes) ∧
    (leaderboardOf subs cnt).Pairwise
      (fun a b => a.total_votes = b.total_votes →
        (subs.map (fun s => s.player_id)).indexOf a.player_id <
          (subs.map (fun s => s.player_id)).indexOf b.player_id) := by
  have hperm : (leaderboardOf subs cnt).Perm (playerTotals subs cnt) :=
    sortDesc_perm _
  have hnodupPT : ((playerTotals subs cnt).map (fun e => e.player_id)).Nodup :=
    foldl_keys_nodup cnt subs [] (by simp)
  refine ⟨?_, ?_, ?_, ?_, ?_⟩
  · intro e he
    have hePT : e ∈ playerTotals subs cnt := hperm.mem_iff.mp he
    have h1 := entry_total_eq_totalIn (playerTotals subs cnt) hnodupPT e hePT
    rw [h1]
    have h2 := foldl_totalIn cnt subs [] e.player_id
    rw [show totalIn [] e.player_id = 0 from rfl, Nat.zero_add] at h2
    exact h2
  · intro q
    constructor
    · rintro ⟨e, he, rfl⟩
      have hePT := hperm.mem_iff.mp he
      have hk : e.player_id ∈ (playerTotals subs cnt).map (fun e => e.player_id) :=
        List.mem_map.mpr ⟨e, hePT, rfl⟩
      rcases (foldl_mem_keys cnt subs [] e.player_id).mp hk with hk2 | hk2
      · simp at hk2
      · obtain ⟨s, hs, hsq⟩ := List.mem_map.mp hk2
        exact ⟨s, hs, hsq⟩
    · rintro ⟨s, hs, rfl⟩
      have hk : s.player_id ∈ (playerTotals subs cnt).map (fun e => e.player_id) :=
        (foldl_mem_keys cnt subs [] s.player_id).mpr
          (Or.inr (List.mem_map.mpr ⟨s, hs, rfl⟩))
      obtain ⟨e, hePT, heq⟩ := List.mem_map.mp hk
      exact ⟨e, hperm.mem_iff.mpr hePT, heq⟩
  · exact (hperm.map (fun e => e.player_id)).nodup_iff.mpr hnodupPT
  · exact sortDesc_sorted _
  · have hkeysPW := foldl_keys_encounter_order cnt subs subs [] []
      rfl (by simp) (by simp)
    have hPTpw := List.pairwise_map.mp hkeysPW
    exact sortDesc_stable_pairwise _ _ hPTpw

/-- C6 witness: the theorem instantiated at two submissions by two
players with 3 and 1 votes. -/
theorem c6_leaderboard_totals_sorted_stable_witness :
    (∀ e ∈ leaderboardOf [(⟨"s1", "pA", "x"⟩ : Submission), ⟨"s2", "pA", "y"⟩]
        (fun sid => if sid == "s1" then 3 else 1),
        e.total_votes =
          (([(⟨"s1", "pA", "x"⟩ : Submission), ⟨"s2", "pA", "y"⟩].filter
              (fun s => s.player_id == e.player_id)).map
            (fun s => (fun sid => if sid == "s1" then 3 else 1) s.sub_id)).sum) ∧
    (∀ q : String,
        (∃ e ∈ leaderboardOf [(⟨"s1", "pA", "x"⟩ : Submission), ⟨"s2", "pA", "y"⟩]
            (fun sid => if sid == "s1" then 3 else 1), e.player_id = q) ↔
        (∃ s ∈ [(⟨"s1", "pA", "x"⟩ : Submission), ⟨"s2", "pA", "y"⟩],
            s.player_id = q)) ∧
    ((leaderboardOf [(⟨"s1", "pA", "x"⟩ : Submission), ⟨"s2", "pA", "y"⟩]
        (fun sid => if sid == "s1" then 3 else 1)).map
      (fun e => e.player_id)).Nodup ∧
    (leaderboardOf [(⟨"s1", "pA", "x"⟩ : Submission), ⟨"s2", "pA", "y"⟩]
        (fun sid => if sid == "s1" then 3 else 1)).Pairwise
      (fun a b => b.total_votes ≤ a.total_votes) ∧
    (leaderboardOf [(⟨"s1", "pA", "x"⟩ : Submission), ⟨"s2", "pA", "y"⟩]
        (fun sid => if sid == "s1" then 3 else 1)).Pairwise
      (fun a b => a.total_votes = b.total_votes →
        ([(⟨"s1", "pA", "x"⟩ : Submission), ⟨"s2", "pA", "y"⟩].map
          (fun s => s.player_id)).indexOf a.player_id <
        ([(⟨"s1", "pA", "x"⟩ : Submission), ⟨"s2", "pA", "y"⟩].map
          (fun s => s.player_id)).indexOf b.player_id) :=
  c6_leaderboard_totals_sorted_stable
    [⟨"s1", "pA", "x"⟩, ⟨"s2", "pA", "y"⟩]
    (fun sid => if sid == "s1" then 3 else 1)

end ParklandHunt
